import Mathlib

/-!
Verification development for the mr-graph retrieval engine.

The definitions below are a shallow embedding of src/mr_graph/retrieval.py
(the single seed query, the multi seed retrieval engine and its bounded BFS)
together with the graph store contract the engine consumes.  Machine integers
of the source are modelled as Nat (hop counts, built from 0 by successor) and
Int (edge weights and caps, which the engine only sums, compares and negates).
Fallible operations return Except with the ValueError message of the source.
-/

namespace MrGraph

/-- A graph storage backend, modelled by the single read operation the
retrieval engine calls: given a track id and an optional result cap, return a
list of (neighbor id, edge weight) pairs. -/
structure GraphBackend where
  get_related_tracks : String → Option Int → List (String × Int)

/-- PairStats from retrieval.py: a (hop distance, cumulative weight) pair. -/
abbrev PairStats := Nat × Int

/-- CandidateDetail from retrieval.py: candidate id, total hop count, total
weight, and the per seed (hop, weight) map in seed order. -/
abbrev CandidateDetail := String × Nat × Int × List (String × PairStats)

/-- Work queue entry of the BFS: (node id, depth, cumulative weight). -/
abbrev QEntry := String × Nat × Int

/-- The visited dict of the BFS: an insertion ordered map from node id to
PairStats, mirroring a Python dict. -/
abbrev VisitMap := List (String × PairStats)

/-- Lookup in a VisitMap, mirroring dict.get. -/
def VisitMap.get : VisitMap → String → Option PairStats
  | [], _ => none
  | e :: rest, n => if e.1 = n then some e.2 else VisitMap.get rest n

/-- Assignment in a VisitMap, mirroring dict assignment: update in place when
the key is present, append at the end otherwise. -/
def VisitMap.set : VisitMap → String → PairStats → VisitMap
  | [], n, v => [(n, v)]
  | e :: rest, n, v => if e.1 = n then (n, v) :: rest else e :: VisitMap.set rest n v

/-- Key removal, mirroring dict.pop(id, None). -/
def VisitMap.pop (m : VisitMap) (n : String) : VisitMap :=
  m.filter (fun e => e.1 != n)

/-- Key list in insertion order, mirroring dict.keys(). -/
def VisitMap.keys (m : VisitMap) : List String :=
  m.map (fun e => e.1)

/-- Key membership test, mirroring the in operator on dict keys. -/
def VisitMap.contains (m : VisitMap) (n : String) : Bool :=
  m.any (fun e => e.1 == n)

/-- One neighbor relaxation of the inner loop of _collect_reachable, verbatim
from the source: skip a neighbor equal to the seed; otherwise update the
record and enqueue the neighbor exactly when it has no record yet, or the new
hop count is strictly smaller, or hops tie and the new cumulative weight is
strictly larger. -/
def relaxNeighbor (seed_id : String) (depth : Nat) (cumulative_weight : Int)
    (acc : VisitMap × List QEntry) (nw : String × Int) : VisitMap × List QEntry :=
  let neighbor_id := nw.1
  let weight := nw.2
  let next_depth := depth + 1
  let next_weight := cumulative_weight + weight
  if neighbor_id = seed_id then acc
  else
    match VisitMap.get acc.1 neighbor_id with
    | none =>
        (VisitMap.set acc.1 neighbor_id (next_depth, next_weight),
         acc.2 ++ [(neighbor_id, next_depth, next_weight)])
    | some best =>
        if next_depth < best.1 ∨ (next_depth = best.1 ∧ next_weight > best.2) then
          (VisitMap.set acc.1 neighbor_id (next_depth, next_weight),
           acc.2 ++ [(neighbor_id, next_depth, next_weight)])
        else acc

/-- Expansion of one dequeued entry of _collect_reachable: an entry at the hop
bound is dequeued without expansion; otherwise every stored neighbor of its
node is relaxed in list order. -/
def expandEntry (backend : GraphBackend) (seed_id : String) (max_hops : Nat)
    (acc : VisitMap × List QEntry) (e : QEntry) : VisitMap × List QEntry :=
  if e.2.1 = max_hops then acc
  else (backend.get_related_tracks e.1 none).foldl (relaxNeighbor seed_id e.2.1 e.2.2) acc

/-- Processing of one level of the BFS work queue: expand every entry of the
level in order, collecting the entries enqueued for the next level. -/
def levelStep (backend : GraphBackend) (seed_id : String) (max_hops : Nat)
    (st : VisitMap × List QEntry) : VisitMap × List QEntry :=
  st.2.foldl (expandEntry backend seed_id max_hops) (st.1, [])

/-- State (visited map, level queue) of the BFS of _collect_reachable after i
levels.  The FIFO deque of the source processes entries in strict level order:
every hop d entry is enqueued before any hop d+1 entry, and expanding a hop d
entry enqueues only hop d+1 entries, so the loop is realized level by level
with an identical sequence of visited map updates and enqueues. -/
def bfsState (backend : GraphBackend) (seed_id : String) (max_hops : Nat) :
    Nat → VisitMap × List QEntry
  | 0 => ([], [(seed_id, 0, 0)])
  | i + 1 => levelStep backend seed_id max_hops (bfsState backend seed_id max_hops i)

/-- The function _collect_reachable of retrieval.py: run the bounded BFS from
the seed.  Entries of level max_hops are dequeued without expansion, so the
visited map after max_hops levels is the final one. -/
def collect_reachable (seed_id : String) (backend : GraphBackend) (max_hops : Nat) : VisitMap :=
  (bfsState backend seed_id max_hops max_hops).1

/-- All entries the BFS ever places on its work queue through level i,
including the initial (seed, 0, 0) entry. -/
def enqueuedUpTo (backend : GraphBackend) (seed_id : String) (max_hops : Nat) :
    Nat → List QEntry
  | 0 => (bfsState backend seed_id max_hops 0).2
  | i + 1 =>
      enqueuedUpTo backend seed_id max_hops i ++ (bfsState backend seed_id max_hops (i + 1)).2

/-- All entries the BFS ever enqueues: levels past max_hops are never
expanded, so levels 0 through max_hops cover every enqueue. -/
def exploredEntries (backend : GraphBackend) (seed_id : String) (max_hops : Nat) : List QEntry :=
  enqueuedUpTo backend seed_id max_hops max_hops

/-- Negative cap test of the source: k is not None and k < 0. -/
def negCap : Option Int → Bool
  | some kk => decide (kk < 0)
  | none => false

/-- Truncation by the optional cap, mirroring results[:k] when k is given
(k has already been validated non negative on every path that truncates). -/
def truncateCap {α : Type} (k : Option Int) (l : List α) : List α :=
  match k with
  | some kk => l.take kk.toNat
  | none => l

/-- The function get_related_tracks of retrieval.py: validate the cap, then
project the neighbor ids out of the ranked (id, weight) list of the store. -/
def get_related_tracks (track_id : String) (backend : GraphBackend) (k : Option Int) :
    Except String (List String) :=
  if negCap k then Except.error "k must be a non-negative integer or None"
  else Except.ok ((backend.get_related_tracks track_id k).map Prod.fst)

/-- Deduplication preserving first occurrence order, mirroring
list(dict.fromkeys(track_ids)). -/
def dedupFirstOccurrence : List String → List String
  | [] => []
  | x :: rest => x :: (dedupFirstOccurrence rest).filter (fun y => y != x)

/-- Per seed reachability maps keyed by seed in seed order: run the BFS for
each deduplicated seed, then remove every seed id from the resulting map.  The
source stores an empty dict unchanged and otherwise pops each member of the
seed set; pops of distinct keys commute, so iterating the deduplicated list in
order realizes the iteration over the Python set form of the seeds. -/
def reachablePerSeed (unique_track_ids : List String) (backend : GraphBackend)
    (max_hops : Nat) : List (String × VisitMap) :=
  unique_track_ids.map (fun seed_id =>
    (seed_id,
      let reachable := collect_reachable seed_id backend max_hops
      if reachable.isEmpty then []
      else unique_track_ids.foldl (fun r s => VisitMap.pop r s) reachable))

/-- Intersection of the candidate key sets across the per seed maps.  The
source intersects Python sets and later iterates the resulting set; the list
below carries the same elements in the key order of the first map, which is
immaterial downstream because the final sort key is total on the distinct
candidate ids. -/
def sharedCandidates (reachable_per_seed : List (String × VisitMap)) : List String :=
  match reachable_per_seed with
  | [] => []
  | first :: rest =>
      rest.foldl (fun keys sr => keys.filter (fun c => VisitMap.contains sr.2 c))
        (VisitMap.keys first.2)

/-- Lookup of the reachability map of one seed, mirroring
reachable_per_seed[seed_id] (the seed is always present by construction). -/
def lookupSeed (reachable_per_seed : List (String × VisitMap)) (seed_id : String) : VisitMap :=
  match reachable_per_seed.find? (fun sr => sr.1 == seed_id) with
  | some sr => sr.2
  | none => []

/-- Construction of one CandidateDetail: the per seed (hop, weight) map over
the deduplicated seeds in order, and the hop and weight totals.  A candidate
is a key of every per seed map, so the getD default is never taken on the
source path (the source indexes the dict directly). -/
def candidateDetail (unique_track_ids : List String)
    (reachable_per_seed : List (String × VisitMap)) (candidate : String) : CandidateDetail :=
  let per_seed := unique_track_ids.map (fun seed_id =>
    (seed_id, (VisitMap.get (lookupSeed reachable_per_seed seed_id) candidate).getD (0, 0)))
  (candidate,
   (per_seed.map (fun p => p.2.1)).sum,
   (per_seed.map (fun p => p.2.2)).sum,
   per_seed)

/-- Sort comparison of the source, results.sort with key
(item[1], -item[2], item[0]): total hops ascending, then negated total weight
ascending, then candidate id ascending.  The sort below is a stable sorted
permutation, like the stable sort of Python; on the source path the candidate
ids are distinct, which makes this comparison antisymmetric there and the
sorted permutation unique. -/
abbrev detailKeyLe (a b : CandidateDetail) : Prop :=
  a.2.1 < b.2.1 ∨
    (a.2.1 = b.2.1 ∧ (-a.2.2.1 < -b.2.2.1 ∨ (-a.2.2.1 = -b.2.2.1 ∧ a.1 ≤ b.1)))

/-- The function get_related_tracks_for_multiple_details of retrieval.py. -/
def get_related_tracks_for_multiple_details (track_ids : List String) (backend : GraphBackend)
    (k : Option Int) (max_hops : Int) : Except String (List CandidateDetail) :=
  if negCap k then Except.error "k must be a non-negative integer or None"
  else if max_hops < 1 then Except.error "max_hops must be at least 1"
  else if track_ids.isEmpty then Except.ok []
  else
    let unique_track_ids := dedupFirstOccurrence track_ids
    let reachable_per_seed := reachablePerSeed unique_track_ids backend max_hops.toNat
    if reachable_per_seed.isEmpty then Except.ok []
    else
      let shared_candidates := sharedCandidates reachable_per_seed
      if shared_candidates.isEmpty then Except.ok []
      else
        let results := shared_candidates.map (candidateDetail unique_track_ids reachable_per_seed)
        Except.ok (truncateCap k (List.insertionSort detailKeyLe results))

/-- The function get_related_tracks_for_multiple of retrieval.py: the detail
query with only the candidate ids kept. -/
def get_related_tracks_for_multiple (track_ids : List String) (backend : GraphBackend)
    (k : Option Int) (max_hops : Int) : Except String (List String) :=
  match get_related_tracks_for_multiple_details track_ids backend k max_hops with
  | Except.error e => Except.error e
  | Except.ok details => Except.ok (details.map (fun d => d.1))

/-- Edge list state of the NetworkX backend graph, one (endpoint, endpoint,
weight) triple per stored undirected edge. -/
abbrev NXGraph := List (String × String × Int)

/-- Neighbor pairs of an id in the NetworkX graph, an edge being incident from
either endpoint. -/
def NXGraph.adjacency (g : NXGraph) (n : String) : List (String × Int) :=
  g.filterMap (fun e =>
    if e.1 = n then some (e.2.1, e.2.2)
    else if e.2.1 = n then some (e.1, e.2.2) else none)

/-- Ranking order of the store contract: weight descending, ties broken by
neighbor id ascending.  Two pairs tie under this order only when they are
equal, so the sorted permutation below is unique. -/
abbrev neighborLe (p q : String × Int) : Prop :=
  q.2 < p.2 ∨ (p.2 = q.2 ∧ p.1 ≤ q.1)

/-- Modelled from the spec: the method NetworkXGraphBackend.get_related_tracks
is absent from the repository sources under src (only its tests exercise it).
Per the store contract of the spec it returns the (neighbor id, edge weight)
pairs of the given id sorted by weight descending with ties broken by neighbor
id ascending, at most that many leading entries of the ranking when a cap is
supplied, and an empty sequence for an unknown or disconnected id. -/
def NXGraph.get_related_tracks (g : NXGraph) (track_id : String) (limit : Option Int) :
    List (String × Int) :=
  let ranked := List.insertionSort neighborLe (NXGraph.adjacency g track_id)
  match limit with
  | some l => ranked.take l.toNat
  | none => ranked

/-- The NetworkX graph state packaged as a GraphBackend. -/
def NXGraph.toBackend (g : NXGraph) : GraphBackend :=
  ⟨fun n limit => NXGraph.get_related_tracks g n limit⟩

/-- Store of spec scenario D: exactly the undirected edges a-b(2), a-c(1),
b-d(5). -/
def storeD : GraphBackend :=
  NXGraph.toBackend [("a", "b", 2), ("a", "c", 1), ("b", "d", 5)]

/-- A backend whose store is empty: every lookup returns no neighbors. -/
def emptyBackend : GraphBackend :=
  ⟨fun _ _ => []⟩

/-- A two seed store with one shared neighbor, used to instantiate theorems
with hypotheses on a query whose result is non empty. -/
def storeC : GraphBackend :=
  NXGraph.toBackend
    [("sa", "common", 5), ("sa", "only_a", 1), ("sb", "common", 4), ("sb", "only_b", 2)]

/-- Store contract conformance consumed by the single seed query: a capped
lookup returns the leading entries of the uncapped ranking. -/
def GraphBackend.Conformant (b : GraphBackend) : Prop :=
  ∀ n kk, 0 ≤ kk →
    b.get_related_tracks n (some kk) = (b.get_related_tracks n none).take kk.toNat

/-- Reachability at an exact hop count with an exact cumulative weight, along
paths that never step back onto the seed (the BFS skips such steps). -/
inductive ReachHop (backend : GraphBackend) (seed_id : String) : String → Nat → Int → Prop
  | refl : ReachHop backend seed_id seed_id 0 0
  | tail {u : String} {d : Nat} {w : Int} {v : String} {ew : Int} :
      ReachHop backend seed_id u d w →
      (v, ew) ∈ backend.get_related_tracks u none →
      v ≠ seed_id →
      ReachHop backend seed_id v (d + 1) (w + ew)

/-- Order on (hop, weight) records: p is at least as good as q when its hop
count is strictly smaller, or hops tie and its weight is at least as large. -/
def statLE (p q : PairStats) : Prop :=
  p.1 < q.1 ∨ (p.1 = q.1 ∧ q.2 ≤ p.2)

/-- Invariant of the BFS between levels: st is the (visited, level queue)
state at level i and E the list of all entries enqueued so far.  Every queue
entry sits at depth i and is realized by a path; every visited record is
realized by a path, lies within the hop bounds, appears among the enqueued
entries and is at least as good as every enqueued entry for its node; every
enqueued entry is the initial seed entry or backed by a current record. -/
structure LevelInv (b : GraphBackend) (s : String) (mh i : Nat)
    (E : List QEntry) (st : VisitMap × List QEntry) : Prop where
  qDepth : ∀ e ∈ st.2, e.2.1 = i
  qReach : ∀ e ∈ st.2, ReachHop b s e.1 e.2.1 e.2.2
  vSound : ∀ n d w, VisitMap.get st.1 n = some (d, w) →
    ReachHop b s n d w ∧ 1 ≤ d ∧ d ≤ i ∧ d ≤ mh
  vSeed : VisitMap.get st.1 s = none
  eDepth : ∀ e ∈ E, e.2.1 ≤ i
  vMin : ∀ n p, VisitMap.get st.1 n = some p →
    (n, p.1, p.2) ∈ E ∧ ∀ d' w', (n, d', w') ∈ E → statLE p (d', w')
  eVis : ∀ n d' w', (n, d', w') ∈ E →
    (n = s ∧ d' = 0 ∧ w' = 0) ∨ ∃ p, VisitMap.get st.1 n = some p

/-- Invariant of the BFS inside the processing of level i: st is the pair of
the current visited map and the queue collected so far for level i + 1, and E
the list of entries enqueued before this level. -/
structure StepInv (b : GraphBackend) (s : String) (mh i : Nat)
    (E : List QEntry) (st : VisitMap × List QEntry) : Prop where
  vSound : ∀ n d w, VisitMap.get st.1 n = some (d, w) →
    ReachHop b s n d w ∧ 1 ≤ d ∧ d ≤ i + 1 ∧ d ≤ mh
  vSeed : VisitMap.get st.1 s = none
  nDepth : ∀ e ∈ st.2, e.2.1 = i + 1 ∧ e.1 ≠ s
  nReach : ∀ e ∈ st.2, ReachHop b s e.1 e.2.1 e.2.2
  vMin : ∀ n p, VisitMap.get st.1 n = some p →
    (n, p.1, p.2) ∈ E ++ st.2 ∧ ∀ d' w', (n, d', w') ∈ E ++ st.2 → statLE p (d', w')
  eVis : ∀ n d' w', (n, d', w') ∈ E ++ st.2 →
    (n = s ∧ d' = 0 ∧ w' = 0) ∨ ∃ p, VisitMap.get st.1 n = some p

/-! ### Order instances for the two sort comparisons -/

instance : IsTrans CandidateDetail detailKeyLe where
  trans a b c hab hbc := by
    rcases hab with h1 | ⟨e1, h2 | ⟨e2, h3⟩⟩ <;>
      rcases hbc with g1 | ⟨f1, g2 | ⟨f2, g3⟩⟩ <;>
      first
        | exact Or.inl (by omega)
        | exact Or.inr ⟨by omega, Or.inl (by omega)⟩
        | exact Or.inr ⟨by omega, Or.inr ⟨by omega, le_trans h3 g3⟩⟩

instance : IsTotal CandidateDetail detailKeyLe where
  total a b := by
    rcases Nat.lt_trichotomy a.2.1 b.2.1 with h | h | h
    · exact Or.inl (Or.inl h)
    · rcases Int.lt_trichotomy (-a.2.2.1) (-b.2.2.1) with g | g | g
      · exact Or.inl (Or.inr ⟨h, Or.inl g⟩)
      · rcases le_total a.1 b.1 with s | s
        · exact Or.inl (Or.inr ⟨h, Or.inr ⟨g, s⟩⟩)
        · exact Or.inr (Or.inr ⟨h.symm, Or.inr ⟨g.symm, s⟩⟩)
      · exact Or.inr (Or.inr ⟨h.symm, Or.inl g⟩)
    · exact Or.inr (Or.inl h)

instance : IsTrans (String × Int) neighborLe where
  trans a b c hab hbc := by
    rcases hab with h1 | ⟨e1, h2⟩ <;> rcases hbc with g1 | ⟨f1, g2⟩
    · exact Or.inl (by omega)
    · exact Or.inl (by omega)
    · exact Or.inl (by omega)
    · exact Or.inr ⟨by omega, le_trans h2 g2⟩

instance : IsTotal (String × Int) neighborLe where
  total a b := by
    rcases Int.lt_trichotomy a.2 b.2 with h | h | h
    · exact Or.inr (Or.inl h)
    · rcases le_total a.1 b.1 with s | s
      · exact Or.inl (Or.inr ⟨h, s⟩)
      · exact Or.inr (Or.inr ⟨h.symm, s⟩)
    · exact Or.inl (Or.inl h)

/-! ### Lemmas about the visited map operations -/

theorem VisitMap.get_set_self (m : VisitMap) (n : String) (v : PairStats) :
    VisitMap.get (VisitMap.set m n v) n = some v := by
  induction m with
  | nil => simp [VisitMap.set, VisitMap.get]
  | cons e rest ih =>
      by_cases h : e.1 = n
      · simp [VisitMap.set, h, VisitMap.get]
      · simp [VisitMap.set, h, VisitMap.get, ih]

theorem VisitMap.get_set_ne (m : VisitMap) (n n' : String) (v : PairStats) (h : n ≠ n') :
    VisitMap.get (VisitMap.set m n v) n' = VisitMap.get m n' := by
  induction m with
  | nil => simp [VisitMap.set, VisitMap.get, h]
  | cons e rest ih =>
      by_cases he : e.1 = n
      · simp [VisitMap.set, he, VisitMap.get, h, he.symm.trans]
      · simp [VisitMap.set, he, VisitMap.get, ih]

theorem VisitMap.get_pop (m : VisitMap) (t n : String) :
    VisitMap.get (VisitMap.pop m t) n = if n = t then none else VisitMap.get m n := by
  induction m with
  | nil => simp [VisitMap.pop, VisitMap.get]
  | cons e rest ih =>
      by_cases he : e.1 = t
      · have hb : (e.1 != t) = false := by simp [he]
        simp only [VisitMap.pop, List.filter_cons, hb] at ih ⊢
        simp only [Bool.false_eq_true, if_false]
        rw [ih]
        by_cases hn : n = t
        · simp [hn]
        · have hen : ¬ e.1 = n := fun hc => hn (by rw [← hc]; exact he)
          simp [hn, VisitMap.get, hen]
      · have hb : (e.1 != t) = true := by simp [he]
        simp only [VisitMap.pop, List.filter_cons, hb, if_true] at ih ⊢
        by_cases hn : n = t
        · subst hn
          simp [VisitMap.get, he, ih]
        · by_cases hen : e.1 = n
          · simp [VisitMap.get, hen, hn]
          · simp [VisitMap.get, hen, ih, hn]

theorem VisitMap.get_eq_some_of_mem_keys {m : VisitMap} {n : String}
    (h : n ∈ VisitMap.keys m) : ∃ p, VisitMap.get m n = some p := by
  induction m with
  | nil => simp [VisitMap.keys] at h
  | cons e rest ih =>
      by_cases he : e.1 = n
      · exact ⟨e.2, by simp [VisitMap.get, he]⟩
      · have hr : n ∈ VisitMap.keys rest := by
          simp only [VisitMap.keys, List.map_cons, List.mem_cons] at h
          rcases h with h | h
          · exact absurd h.symm he
          · exact h
        rcases ih hr with ⟨p, hp⟩
        exact ⟨p, by simp [VisitMap.get, he, hp]⟩

theorem VisitMap.mem_keys_of_get_eq_some {m : VisitMap} {n : String} {p : PairStats}
    (h : VisitMap.get m n = some p) : n ∈ VisitMap.keys m := by
  induction m with
  | nil => simp [VisitMap.get] at h
  | cons e rest ih =>
      by_cases he : e.1 = n
      · simp [VisitMap.keys, he.symm]
      · simp only [VisitMap.get, he, if_false] at h
        simp only [VisitMap.keys, List.map_cons, List.mem_cons]
        exact Or.inr (ih h)

theorem VisitMap.contains_iff {m : VisitMap} {n : String} :
    VisitMap.contains m n = true ↔ ∃ p, VisitMap.get m n = some p := by
  induction m with
  | nil => simp [VisitMap.contains, VisitMap.get]
  | cons e rest ih =>
      by_cases he : e.1 = n
      · simp [VisitMap.contains, VisitMap.get, he]
      · have hb : (e.1 == n) = false := by simp [he]
        simp only [VisitMap.contains, List.any_cons, hb, Bool.false_or] at ih ⊢
        simp [VisitMap.get, he, ih]

/-! ### Lemmas about the record order -/

theorem statLE_refl (p : PairStats) : statLE p p := by unfold statLE; omega

theorem statLE_trans {p q r : PairStats} (h1 : statLE p q) (h2 : statLE q r) : statLE p r := by
  unfold statLE at h1 h2 ⊢; omega

theorem statLE_of_improve {best cand : PairStats}
    (h : cand.1 < best.1 ∨ (cand.1 = best.1 ∧ cand.2 > best.2)) : statLE cand best := by
  unfold statLE; omega

theorem statLE_of_not_improve {best cand : PairStats}
    (h : ¬(cand.1 < best.1 ∨ (cand.1 = best.1 ∧ cand.2 > best.2))) : statLE best cand := by
  unfold statLE; omega

/-! ### Shape of the multi seed query on the validated path -/

theorem truncateCap_nil {α : Type} (k : Option Int) : truncateCap k ([] : List α) = [] := by
  cases k <;> simp [truncateCap]

theorem dedupFirstOccurrence_eq_nil_iff {l : List String} :
    dedupFirstOccurrence l = [] ↔ l = [] := by
  cases l with
  | nil => simp [dedupFirstOccurrence]
  | cons x rest => simp [dedupFirstOccurrence]

/-- On the validated path, the detail query is the sorted, truncated list of
the candidate details of the shared candidates. -/
theorem details_eq (track_ids : List String) (backend : GraphBackend) (k : Option Int)
    (max_hops : Int) (hk : negCap k = false) (hmh : 1 ≤ max_hops) :
    get_related_tracks_for_multiple_details track_ids backend k max_hops =
      Except.ok (truncateCap k (List.insertionSort detailKeyLe
        ((sharedCandidates
            (reachablePerSeed (dedupFirstOccurrence track_ids) backend max_hops.toNat)).map
          (candidateDetail (dedupFirstOccurrence track_ids)
            (reachablePerSeed (dedupFirstOccurrence track_ids) backend max_hops.toNat))))) := by
  have h1 : ¬ (max_hops < 1) := not_lt.mpr hmh
  by_cases h0 : track_ids.isEmpty
  · have hnil : track_ids = [] := by simpa [List.isEmpty_iff] using h0
    subst hnil
    simp [get_related_tracks_for_multiple_details, hk, h1, dedupFirstOccurrence,
      reachablePerSeed, sharedCandidates, truncateCap_nil]
  · have hne : dedupFirstOccurrence track_ids ≠ [] := by
      intro hc
      rw [dedupFirstOccurrence_eq_nil_iff] at hc
      simp [hc] at h0
    have hrps :
        (reachablePerSeed (dedupFirstOccurrence track_ids) backend max_hops.toNat).isEmpty
          = false := by
      unfold reachablePerSeed
      cases hdu : dedupFirstOccurrence track_ids with
      | nil => exact absurd hdu hne
      | cons a l => simp
    unfold get_related_tracks_for_multiple_details
    simp only [hk, Bool.false_eq_true, if_false, h1, h0, hrps]
    by_cases hsh :
        (sharedCandidates
          (reachablePerSeed (dedupFirstOccurrence track_ids) backend max_hops.toNat)).isEmpty
    · have hshe : sharedCandidates
          (reachablePerSeed (dedupFirstOccurrence track_ids) backend max_hops.toNat) = [] := by
        simpa [List.isEmpty_iff] using hsh
      simp [hsh, hshe, truncateCap_nil]
    · simp [hsh]

/-- The id only multi seed query maps the detail query through the id
projection, errors included. -/
theorem multiple_eq_map_details (track_ids : List String) (b : GraphBackend)
    (k : Option Int) (mh : Int) :
    get_related_tracks_for_multiple track_ids b k mh =
      Except.map (List.map (fun d => d.1))
        (get_related_tracks_for_multiple_details track_ids b k mh) := by
  unfold get_related_tracks_for_multiple
  cases get_related_tracks_for_multiple_details track_ids b k mh <;> rfl

/-! ### Deduplication lemmas -/

theorem dedupFirstOccurrence_nodup (l : List String) : (dedupFirstOccurrence l).Nodup := by
  induction l with
  | nil => simp [dedupFirstOccurrence]
  | cons x rest ih =>
      simp only [dedupFirstOccurrence]
      refine List.nodup_cons.mpr ⟨?_, List.Nodup.filter _ ih⟩
      intro hmem
      have := (List.mem_filter.mp hmem).2
      simp at this

theorem dedupFirstOccurrence_sublist (l : List String) :
    List.Sublist (dedupFirstOccurrence l) l := by
  induction l with
  | nil => simp [dedupFirstOccurrence]
  | cons x rest ih =>
      simp only [dedupFirstOccurrence]
      exact List.Sublist.cons₂ x ((List.filter_sublist _).trans ih)

theorem mem_dedupFirstOccurrence {l : List String} {x : String} :
    x ∈ dedupFirstOccurrence l ↔ x ∈ l := by
  induction l with
  | nil => simp [dedupFirstOccurrence]
  | cons y rest ih =>
      simp only [dedupFirstOccurrence, List.mem_cons]
      constructor
      · rintro (rfl | h)
        · exact Or.inl rfl
        · exact Or.inr (ih.mp (List.mem_of_mem_filter h))
      · rintro (rfl | h)
        · exact Or.inl rfl
        · by_cases hx : x = y
          · exact Or.inl hx
          · refine Or.inr (List.mem_filter.mpr ⟨ih.mpr h, ?_⟩)
            simp [hx]

/-- The validated multi seed query reads its seed list only through the
deduplicated seed list. -/
theorem details_depends_only_on_dedup (l₁ l₂ : List String) (b : GraphBackend)
    (k : Option Int) (mh : Int)
    (hd : dedupFirstOccurrence l₁ = dedupFirstOccurrence l₂) :
    get_related_tracks_for_multiple_details l₁ b k mh =
      get_related_tracks_for_multiple_details l₂ b k mh := by
  by_cases hk : negCap k = true
  · simp [get_related_tracks_for_multiple_details, hk]
  · have hk' : negCap k = false := by simpa using hk
    by_cases hmh : mh < 1
    · simp [get_related_tracks_for_multiple_details, hk', hmh]
    · have hmh' : (1 : Int) ≤ mh := not_lt.mp hmh
      rw [details_eq l₁ b k mh hk' hmh', details_eq l₂ b k mh hk' hmh', hd]

/-! ### Sort key conversion -/

theorem detailKeyLe_iff_spec (x y : CandidateDetail) :
    detailKeyLe x y ↔
      (x.2.1 < y.2.1 ∨
        (x.2.1 = y.2.1 ∧ (y.2.2.1 < x.2.2.1 ∨ (x.2.2.1 = y.2.2.1 ∧ x.1 ≤ y.1)))) := by
  constructor <;>
    (intro h
     rcases h with h | ⟨e, h | ⟨f, s⟩⟩
     · exact Or.inl h
     · exact Or.inr ⟨e, Or.inl (by omega)⟩
     · exact Or.inr ⟨e, Or.inr ⟨by omega, s⟩⟩)

/-! ### Intersection and seed removal lemmas -/

theorem mem_foldl_filter {α β : Type} (f : β → α → Bool) (l : List β) (init : List α)
    {x : α} (h : x ∈ l.foldl (fun acc b => acc.filter (fun a => f b a)) init) :
    x ∈ init ∧ ∀ b ∈ l, f b x = true := by
  induction l generalizing init with
  | nil => simpa using h
  | cons b rest ih =>
      simp only [List.foldl_cons] at h
      rcases ih (init.filter (fun a => f b a)) h with ⟨hmem, hall⟩
      rcases List.mem_filter.mp hmem with ⟨h1, h2⟩
      refine ⟨h1, ?_⟩
      intro b' hb'
      rcases List.mem_cons.mp hb' with rfl | hb'
      · exact h2
      · exact hall _ hb'

theorem mem_sharedCandidates {rps : List (String × VisitMap)} {c : String}
    (h : c ∈ sharedCandidates rps) :
    rps ≠ [] ∧ ∀ sr ∈ rps, ∃ p, VisitMap.get sr.2 c = some p := by
  cases rps with
  | nil => simp [sharedCandidates] at h
  | cons first rest =>
      unfold sharedCandidates at h
      rcases mem_foldl_filter (fun sr c => VisitMap.contains sr.2 c) rest
          (VisitMap.keys first.2) h with ⟨hfirst, hrest⟩
      refine ⟨by simp, ?_⟩
      intro sr hsr
      rcases List.mem_cons.mp hsr with rfl | hsr
      · exact VisitMap.get_eq_some_of_mem_keys hfirst
      · exact VisitMap.contains_iff.mp (hrest sr hsr)

theorem get_foldl_pop_none {seeds : List String} {m : VisitMap} {s : String}
    (h : VisitMap.get m s = none) :
    VisitMap.get (seeds.foldl (fun r t => VisitMap.pop r t) m) s = none := by
  induction seeds generalizing m with
  | nil => exact h
  | cons t rest ih =>
      simp only [List.foldl_cons]
      apply ih
      rw [VisitMap.get_pop]
      by_cases hst : s = t <;> simp [hst, h]

theorem get_foldl_pop_of_mem {seeds : List String} {m : VisitMap} {s : String}
    (hs : s ∈ seeds) :
    VisitMap.get (seeds.foldl (fun r t => VisitMap.pop r t) m) s = none := by
  induction seeds generalizing m with
  | nil => simp at hs
  | cons t rest ih =>
      simp only [List.foldl_cons]
      rcases List.mem_cons.mp hs with rfl | hs
      · exact get_foldl_pop_none (by rw [VisitMap.get_pop]; simp)
      · exact ih hs

theorem get_eq_of_foldl_pop_some {seeds : List String} {m : VisitMap} {c : String}
    {p : PairStats}
    (h : VisitMap.get (seeds.foldl (fun r t => VisitMap.pop r t) m) c = some p) :
    VisitMap.get m c = some p := by
  induction seeds generalizing m with
  | nil => exact h
  | cons t rest ih =>
      simp only [List.foldl_cons] at h
      have hpop := ih h
      rw [VisitMap.get_pop] at hpop
      by_cases hct : c = t
      · simp [hct] at hpop
      · simpa [hct] using hpop

/-- Every map produced by reachablePerSeed sends every seed of the
deduplicated list to none. -/
theorem reachablePerSeed_get_seed_none {unique : List String} {b : GraphBackend}
    {mhn : Nat} {sr : String × VisitMap}
    (hsr : sr ∈ reachablePerSeed unique b mhn) {s : String} (hs : s ∈ unique) :
    VisitMap.get sr.2 s = none := by
  unfold reachablePerSeed at hsr
  rcases List.mem_map.mp hsr with ⟨seed_id, _, rfl⟩
  dsimp only
  by_cases he : (collect_reachable seed_id b mhn).isEmpty
  · simp only [he, if_true]
    simp [VisitMap.get]
  · simp only [he, Bool.false_eq_true, if_false]
    exact get_foldl_pop_of_mem hs

/-- Every map produced by reachablePerSeed is either empty or the seed popped
BFS visited map, so any stored record is a record of collect_reachable. -/
theorem reachablePerSeed_get_some {unique : List String} {b : GraphBackend}
    {mhn : Nat} {sr : String × VisitMap}
    (hsr : sr ∈ reachablePerSeed unique b mhn) {c : String} {p : PairStats}
    (h : VisitMap.get sr.2 c = some p) :
    VisitMap.get (collect_reachable sr.1 b mhn) c = some p := by
  unfold reachablePerSeed at hsr
  rcases List.mem_map.mp hsr with ⟨seed_id, _, rfl⟩
  dsimp only at h ⊢
  by_cases he : (collect_reachable seed_id b mhn).isEmpty
  · simp only [he, if_true] at h
    simp [VisitMap.get] at h
  · simp only [he, Bool.false_eq_true, if_false] at h ⊢
    exact get_eq_of_foldl_pop_some h

/-! ### Lookup of one seed in the per seed maps -/

theorem lookupSeed_spec {rps : List (String × VisitMap)} {sid : String}
    (hsome : (rps.find? (fun sr => sr.1 == sid)).isSome) :
    ∃ sr ∈ rps, sr.1 = sid ∧ lookupSeed rps sid = sr.2 := by
  cases hfind : rps.find? (fun sr => sr.1 == sid) with
  | none => rw [hfind] at hsome; simp at hsome
  | some sr =>
      refine ⟨sr, List.mem_of_find?_eq_some hfind, ?_, ?_⟩
      · have hb := List.find?_some hfind
        exact eq_of_beq hb
      · unfold lookupSeed
        rw [hfind]

theorem reachablePerSeed_find_isSome {unique : List String} {b : GraphBackend}
    {mhn : Nat} {sid : String} (hsid : sid ∈ unique) :
    ((reachablePerSeed unique b mhn).find? (fun sr => sr.1 == sid)).isSome := by
  rw [List.find?_isSome]
  unfold reachablePerSeed
  refine ⟨_, List.mem_map_of_mem _ hsid, ?_⟩
  simp

/-- For a shared candidate, the map looked up for any deduplicated seed sends
the candidate to a record of the BFS from that seed. -/
theorem lookupSeed_get_collect {unique : List String} {b : GraphBackend} {mhn : Nat}
    {sid c : String} (hsid : sid ∈ unique)
    (hall : ∀ sr ∈ reachablePerSeed unique b mhn, ∃ p, VisitMap.get sr.2 c = some p) :
    ∃ p, VisitMap.get (lookupSeed (reachablePerSeed unique b mhn) sid) c = some p ∧
      VisitMap.get (collect_reachable sid b mhn) c = some p := by
  rcases lookupSeed_spec (reachablePerSeed_find_isSome hsid) with ⟨sr, hsr, hfst, hlook⟩
  rcases hall sr hsr with ⟨p, hp⟩
  refine ⟨p, by rw [hlook]; exact hp, ?_⟩
  have := reachablePerSeed_get_some hsr hp
  rw [hfst] at this
  exact this

/-! ### Sum bounds -/

theorem length_le_sum_of_one_le {l : List Nat} (h : ∀ x ∈ l, 1 ≤ x) :
    l.length ≤ l.sum := by
  induction l with
  | nil => simp
  | cons a t ih =>
      have ha := h a (List.mem_cons_self a t)
      have ht := ih (fun x hx => h x (List.mem_cons_of_mem a hx))
      simp only [List.length_cons, List.sum_cons]
      omega

theorem sum_le_length_mul_of_le {l : List Nat} {m : Nat} (h : ∀ x ∈ l, x ≤ m) :
    l.sum ≤ l.length * m := by
  induction l with
  | nil => simp
  | cons a t ih =>
      have ha := h a (List.mem_cons_self a t)
      have ht := ih (fun x hx => h x (List.mem_cons_of_mem a hx))
      simp only [List.length_cons, List.sum_cons, Nat.succ_mul]
      omega

/-! ### Shape of one candidate detail -/

theorem candidateDetail_fst (u : List String) (rps : List (String × VisitMap))
    (c : String) : (candidateDetail u rps c).1 = c := rfl

theorem candidateDetail_perSeed (u : List String) (rps : List (String × VisitMap))
    (c : String) :
    (candidateDetail u rps c).2.2.2 =
      u.map (fun seed_id =>
        (seed_id, (VisitMap.get (lookupSeed rps seed_id) c).getD (0, 0))) := rfl

theorem candidateDetail_hops (u : List String) (rps : List (String × VisitMap))
    (c : String) :
    (candidateDetail u rps c).2.1 =
      ((candidateDetail u rps c).2.2.2.map (fun q => q.2.1)).sum := rfl

/-! ### BFS invariant preservation -/

/-- Outcome characterization of one neighbor relaxation: either the state is
updated with the candidate record and the candidate entry is enqueued (the
candidate being at least as good as any previous record), or the state is
unchanged because the neighbor is the seed or an at least as good record
exists. -/
theorem relaxNeighbor_cases (seed_id : String) (depth : Nat) (cw : Int)
    (acc : VisitMap × List QEntry) (n : String) (ew : Int) :
    (n ≠ seed_id ∧
      relaxNeighbor seed_id depth cw acc (n, ew) =
        (VisitMap.set acc.1 n (depth + 1, cw + ew), acc.2 ++ [(n, depth + 1, cw + ew)]) ∧
      ∀ p, VisitMap.get acc.1 n = some p → statLE (depth + 1, cw + ew) p) ∨
    (relaxNeighbor seed_id depth cw acc (n, ew) = acc ∧
      (n = seed_id ∨
        ∃ best, VisitMap.get acc.1 n = some best ∧ statLE best (depth + 1, cw + ew))) := by
  unfold relaxNeighbor
  dsimp only
  by_cases hns : n = seed_id
  · rw [if_pos hns]
    exact Or.inr ⟨rfl, Or.inl hns⟩
  · rw [if_neg hns]
    cases hbest : VisitMap.get acc.1 n with
    | none =>
        dsimp only
        refine Or.inl ⟨hns, rfl, ?_⟩
        intro p hp
        simp at hp
    | some best =>
        dsimp only
        by_cases himp : depth + 1 < best.1 ∨ (depth + 1 = best.1 ∧ cw + ew > best.2)
        · rw [if_pos himp]
          refine Or.inl ⟨hns, rfl, ?_⟩
          intro p hp
          injection hp with hp
          subst hp
          exact statLE_of_improve himp
        · rw [if_neg himp]
          exact Or.inr ⟨rfl, Or.inr ⟨best, rfl, statLE_of_not_improve himp⟩⟩

/-- One relaxation only appends to the collected queue. -/
theorem relaxNeighbor_queue_mono (seed_id : String) (depth : Nat) (cw : Int)
    (acc : VisitMap × List QEntry) (nw : String × Int) {x : QEntry} (hx : x ∈ acc.2) :
    x ∈ (relaxNeighbor seed_id depth cw acc nw).2 := by
  obtain ⟨n, ew⟩ := nw
  rcases relaxNeighbor_cases seed_id depth cw acc n ew with ⟨_, heq, _⟩ | ⟨heq, _⟩
  · rw [heq]
    exact List.mem_append.mpr (Or.inl hx)
  · rw [heq]
    exact hx

/-- The invariant is preserved by recording an improving candidate at hop
i + 1 for a non seed node realized by a path. -/
theorem stepInv_update {b : GraphBackend} {s : String} {mh i : Nat} {E : List QEntry}
    {acc : VisitMap × List QEntry} {n : String} {w : Int}
    (hInv : StepInv b s mh i E acc) (hns : n ≠ s)
    (hreach : ReachHop b s n (i + 1) w)
    (hlt : i < mh)
    (hbest : ∀ p, VisitMap.get acc.1 n = some p → statLE (i + 1, w) p) :
    StepInv b s mh i E (VisitMap.set acc.1 n (i + 1, w), acc.2 ++ [(n, i + 1, w)]) := by
  constructor
  · intro m d dw hm
    by_cases hmn : m = n
    · subst hmn
      rw [VisitMap.get_set_self] at hm
      injection hm with hm
      simp only [Prod.mk.injEq] at hm
      obtain ⟨h1, h2⟩ := hm
      subst h1
      subst h2
      exact ⟨hreach, by omega, by omega, by omega⟩
    · rw [VisitMap.get_set_ne _ _ _ _ (fun hc => hmn hc.symm)] at hm
      exact hInv.vSound m d dw hm
  · rw [VisitMap.get_set_ne _ _ _ _ hns]
    exact hInv.vSeed
  · intro e he
    rcases List.mem_append.mp he with he | he
    · exact hInv.nDepth e he
    · rw [List.mem_singleton] at he
      subst he
      exact ⟨rfl, hns⟩
  · intro e he
    rcases List.mem_append.mp he with he | he
    · exact hInv.nReach e he
    · rw [List.mem_singleton] at he
      subst he
      exact hreach
  · intro m p hm
    by_cases hmn : m = n
    · subst hmn
      rw [VisitMap.get_set_self] at hm
      injection hm with hm
      subst hm
      constructor
      · simp
      · intro d' w' hmem
        rcases List.mem_append.mp hmem with hmem | hmem2
        · have hold := hInv.eVis m d' w' (List.mem_append.mpr (Or.inl hmem))
          rcases hold with ⟨hms, _, _⟩ | ⟨p₀, hp₀⟩
          · exact absurd hms hns
          · exact statLE_trans (hbest p₀ hp₀)
              ((hInv.vMin m p₀ hp₀).2 d' w' (List.mem_append.mpr (Or.inl hmem)))
        · rcases List.mem_append.mp hmem2 with hmem2 | hmem3
          · have hold := hInv.eVis m d' w' (List.mem_append.mpr (Or.inr hmem2))
            rcases hold with ⟨hms, _, _⟩ | ⟨p₀, hp₀⟩
            · exact absurd hms hns
            · exact statLE_trans (hbest p₀ hp₀)
                ((hInv.vMin m p₀ hp₀).2 d' w' (List.mem_append.mpr (Or.inr hmem2)))
          · rw [List.mem_singleton] at hmem3
            simp only [Prod.mk.injEq] at hmem3
            obtain ⟨_, h1, h2⟩ := hmem3
            subst h1
            subst h2
            exact statLE_refl _
    · rw [VisitMap.get_set_ne _ _ _ _ (fun hc => hmn hc.symm)] at hm
      have hold := hInv.vMin m p hm
      constructor
      · rcases List.mem_append.mp hold.1 with h | h
        · exact List.mem_append.mpr (Or.inl h)
        · exact List.mem_append.mpr (Or.inr (List.mem_append.mpr (Or.inl h)))
      · intro d' w' hmem
        rcases List.mem_append.mp hmem with hmem | hmem2
        · exact hold.2 d' w' (List.mem_append.mpr (Or.inl hmem))
        · rcases List.mem_append.mp hmem2 with hmem2 | hmem3
          · exact hold.2 d' w' (List.mem_append.mpr (Or.inr hmem2))
          · rw [List.mem_singleton] at hmem3
            simp only [Prod.mk.injEq] at hmem3
            exact absurd hmem3.1 hmn
  · intro m d' w' hmem
    by_cases hmn : m = n
    · subst hmn
      exact Or.inr ⟨(i + 1, w), VisitMap.get_set_self _ _ _⟩
    · have hne : VisitMap.get (VisitMap.set acc.1 n (i + 1, w)) m = VisitMap.get acc.1 m :=
        VisitMap.get_set_ne _ _ _ _ (fun hc => hmn hc.symm)
      have hmem0 : (m, d', w') ∈ E ++ acc.2 := by
        rcases List.mem_append.mp hmem with h | h
        · exact List.mem_append.mpr (Or.inl h)
        · rcases List.mem_append.mp h with h | h3
          · exact List.mem_append.mpr (Or.inr h)
          · rw [List.mem_singleton] at h3
            simp only [Prod.mk.injEq] at h3
            exact absurd h3.1 hmn
      rcases hInv.eVis m d' w' hmem0 with h | ⟨p, hp⟩
      · exact Or.inl h
      · exact Or.inr ⟨p, by rw [hne]; exact hp⟩

/-- One relaxation of a neighbor of an expanded entry preserves the level
processing invariant. -/
theorem relaxNeighbor_inv {b : GraphBackend} {s : String} {mh i : Nat} {E : List QEntry}
    {acc : VisitMap × List QEntry} {u : String} {wc : Int} {n : String} {ew : Int}
    (hInv : StepInv b s mh i E acc)
    (hu : ReachHop b s u i wc)
    (hnw : (n, ew) ∈ b.get_related_tracks u none)
    (hlt : i < mh) :
    StepInv b s mh i E (relaxNeighbor s i wc acc (n, ew)) := by
  rcases relaxNeighbor_cases s i wc acc n ew with ⟨hns, heq, hbest⟩ | ⟨heq, _⟩
  · rw [heq]
    exact stepInv_update hInv hns (ReachHop.tail hu hnw hns) hlt hbest
  · rw [heq]
    exact hInv

/-- Expanding one queue entry of the level preserves the invariant. -/
theorem expandEntry_inv {b : GraphBackend} {s : String} {mh i : Nat} {E : List QEntry}
    {acc : VisitMap × List QEntry} {e : QEntry}
    (hInv : StepInv b s mh i E acc)
    (hd : e.2.1 = i) (hr : ReachHop b s e.1 e.2.1 e.2.2) (hle : i ≤ mh) :
    StepInv b s mh i E (expandEntry b s mh acc e) := by
  subst hd
  unfold expandEntry
  by_cases hmax : e.2.1 = mh
  · rw [if_pos hmax]
    exact hInv
  · rw [if_neg hmax]
    have hlt : e.2.1 < mh := by omega
    refine List.foldlRecOn (b.get_related_tracks e.1 none) _ acc hInv ?_
    intro st hst nw hnw
    obtain ⟨n, ew⟩ := nw
    exact relaxNeighbor_inv hst hr hnw hlt

/-- Expanding one queue entry only appends to the collected queue. -/
theorem expandEntry_queue_mono {b : GraphBackend} {s : String} {mh : Nat}
    {acc : VisitMap × List QEntry} {e : QEntry} {x : QEntry} (hx : x ∈ acc.2) :
    x ∈ (expandEntry b s mh acc e).2 := by
  unfold expandEntry
  by_cases hmax : e.2.1 = mh
  · rw [if_pos hmax]
    exact hx
  · rw [if_neg hmax]
    refine List.foldlRecOn (motive := fun st => x ∈ st.2)
      (b.get_related_tracks e.1 none) _ acc hx ?_
    intro st hst nw _
    exact relaxNeighbor_queue_mono _ _ _ _ _ hst

/-- Entering a level converts the between levels invariant into the level
processing invariant with an empty collected queue. -/
theorem stepInv_of_levelInv {b : GraphBackend} {s : String} {mh i : Nat}
    {E : List QEntry} {st : VisitMap × List QEntry}
    (h : LevelInv b s mh i E st) : StepInv b s mh i E (st.1, []) := by
  constructor
  · intro n d w hm
    have hv := h.vSound n d w hm
    exact ⟨hv.1, hv.2.1, by omega, hv.2.2.2⟩
  · exact h.vSeed
  · intro e he
    simp at he
  · intro e he
    simp at he
  · intro n p hm
    have hv := h.vMin n p hm
    exact ⟨by simpa using hv.1, fun d' w' hmem => hv.2 d' w' (by simpa using hmem)⟩
  · intro n d' w' hmem
    exact h.eVis n d' w' (by simpa using hmem)

/-- Processing one full level preserves the between levels invariant, the
enqueued entries growing by the collected queue of the next level. -/
theorem levelStep_inv {b : GraphBackend} {s : String} {mh i : Nat} {E : List QEntry}
    {st : VisitMap × List QEntry} (h : LevelInv b s mh i E st) (hle : i ≤ mh) :
    LevelInv b s mh (i + 1) (E ++ (levelStep b s mh st).2) (levelStep b s mh st) := by
  have hstep : StepInv b s mh i E (levelStep b s mh st) := by
    unfold levelStep
    refine List.foldlRecOn st.2 _ (st.1, []) (stepInv_of_levelInv h) ?_
    intro acc hacc e he
    exact expandEntry_inv hacc (h.qDepth e he) (h.qReach e he) hle
  constructor
  · intro e he
    exact (hstep.nDepth e he).1
  · exact hstep.nReach
  · intro n d w hm
    exact hstep.vSound n d w hm
  · exact hstep.vSeed
  · intro e he
    rcases List.mem_append.mp he with he | he
    · exact (h.eDepth e he).trans (by omega)
    · exact le_of_eq (hstep.nDepth e he).1
  · exact hstep.vMin
  · exact hstep.eVis

/-- The between levels invariant holds of every BFS state up to the hop
bound. -/
theorem bfs_levelInv (b : GraphBackend) (s : String) (mh : Nat) :
    ∀ i, i ≤ mh →
      LevelInv b s mh i (enqueuedUpTo b s mh i) (bfsState b s mh i) := by
  intro i
  induction i with
  | zero =>
      intro _
      constructor
      · intro e he
        simp only [bfsState, List.mem_singleton] at he
        subst he
        rfl
      · intro e he
        simp only [bfsState, List.mem_singleton] at he
        subst he
        exact ReachHop.refl
      · intro n d w hm
        simp [bfsState, VisitMap.get] at hm
      · rfl
      · intro e he
        simp only [enqueuedUpTo, bfsState, List.mem_singleton] at he
        subst he
        exact le_refl 0
      · intro n p hm
        simp [bfsState, VisitMap.get] at hm
      · intro n d' w' hmem
        simp only [enqueuedUpTo, bfsState, List.mem_singleton, Prod.mk.injEq] at hmem
        exact Or.inl hmem
  | succ j ih =>
      intro hle
      have hj : j ≤ mh := by omega
      exact levelStep_inv (ih hj) hj

/-- Soundness of the final visited map: every record is realized by a path
avoiding the seed, with a hop count between 1 and the hop bound. -/
theorem collect_reachable_sound {b : GraphBackend} {s : String} {mh : Nat}
    {n : String} {d : Nat} {w : Int}
    (h : VisitMap.get (collect_reachable s b mh) n = some (d, w)) :
    ReachHop b s n d w ∧ 1 ≤ d ∧ d ≤ mh := by
  have hv := (bfs_levelInv b s mh mh (le_refl mh)).vSound n d w h
  exact ⟨hv.1, hv.2.1, hv.2.2.2⟩

/-! ### BFS completeness: every shortest reachable node is enqueued -/

theorem reachHop_seed_hop_zero {b : GraphBackend} {s : String} {d : Nat} {w : Int}
    (h : ReachHop b s s d w) : d = 0 ∧ w = 0 := by
  cases h with
  | refl => exact ⟨rfl, rfl⟩
  | tail _ _ hne => exact absurd rfl hne

theorem reachHop_hop_zero {b : GraphBackend} {s n : String} {w : Int}
    (h : ReachHop b s n 0 w) : n = s ∧ w = 0 := by
  cases h with
  | refl => exact ⟨rfl, rfl⟩

theorem foldl_relax_queue_mono {s : String} {i : Nat} {wc : Int}
    {ns : List (String × Int)} {acc : VisitMap × List QEntry} {x : QEntry}
    (hx : x ∈ acc.2) : x ∈ (ns.foldl (relaxNeighbor s i wc) acc).2 :=
  List.foldlRecOn (motive := fun st => x ∈ st.2) ns _ acc hx
    (fun _ hst nw _ => relaxNeighbor_queue_mono _ _ _ _ nw hst)

theorem foldl_expand_queue_mono {b : GraphBackend} {s : String} {mh : Nat}
    {es : List QEntry} {acc : VisitMap × List QEntry} {x : QEntry}
    (hx : x ∈ acc.2) : x ∈ (es.foldl (expandEntry b s mh) acc).2 :=
  List.foldlRecOn (motive := fun st => x ∈ st.2) es _ acc hx
    (fun _ hst _ _ => expandEntry_queue_mono hst)

theorem foldl_relax_inv {b : GraphBackend} {s : String} {mh i : Nat} {E : List QEntry}
    {ns : List (String × Int)} {acc : VisitMap × List QEntry} {u : String} {wc : Int}
    (hInv : StepInv b s mh i E acc) (hu : ReachHop b s u i wc)
    (hsub : ∀ nw ∈ ns, nw ∈ b.get_related_tracks u none) (hlt : i < mh) :
    StepInv b s mh i E (ns.foldl (relaxNeighbor s i wc) acc) :=
  List.foldlRecOn ns _ acc hInv
    (fun _ hst nw hnw => by
      obtain ⟨n, ew⟩ := nw
      exact relaxNeighbor_inv hst hu (hsub _ hnw) hlt)

theorem foldl_expand_inv {b : GraphBackend} {s : String} {mh i : Nat} {E : List QEntry}
    {es : List QEntry} {acc : VisitMap × List QEntry}
    (hInv : StepInv b s mh i E acc)
    (hd : ∀ e ∈ es, e.2.1 = i) (hr : ∀ e ∈ es, ReachHop b s e.1 e.2.1 e.2.2)
    (hle : i ≤ mh) :
    StepInv b s mh i E (es.foldl (expandEntry b s mh) acc) :=
  List.foldlRecOn es _ acc hInv
    (fun _ hst e he => expandEntry_inv hst (hd e he) (hr e he) hle)

/-- If a neighbor of an expanded node is at true distance i + 1, relaxing that
neighbor leaves an entry for it at hop i + 1 in the collected queue. -/
theorem relaxNeighbor_hit {b : GraphBackend} {s : String} {mh i : Nat} {E : List QEntry}
    {acc : VisitMap × List QEntry} {n : String} (wc ew : Int)
    (hInv : StepInv b s mh i E acc)
    (hE : ∀ e ∈ E, e.2.1 ≤ i)
    (hns : n ≠ s)
    (hmin : ∀ d' w', ReachHop b s n d' w' → i + 1 ≤ d') :
    ∃ w'', (n, i + 1, w'') ∈ (relaxNeighbor s i wc acc (n, ew)).2 := by
  rcases relaxNeighbor_cases s i wc acc n ew with ⟨_, heq, _⟩ | ⟨heq, hwhy⟩
  · rw [heq]
    exact ⟨wc + ew, by simp⟩
  · rw [heq]
    rcases hwhy with hcs | ⟨best, hbest, hle⟩
    · exact absurd hcs hns
    · obtain ⟨bd, bw⟩ := best
      have hsound := hInv.vSound n bd bw hbest
      have hlb := hmin bd bw hsound.1
      have hbd : bd = i + 1 := by
        rcases hle with h | ⟨h, _⟩
        · exact absurd h (by omega)
        · exact h
      subst hbd
      have hmem := (hInv.vMin n (i + 1, bw) hbest).1
      rcases List.mem_append.mp hmem with hmem | hmem
      · have h2 : i + 1 ≤ i := hE _ hmem
        exact absurd h2 (by omega)
      · exact ⟨bw, hmem⟩

/-- Expanding an entry for a node u at hop i leaves an entry at hop i + 1 in
the collected queue for any neighbor of u at true distance i + 1. -/
theorem expandEntry_hit {b : GraphBackend} {s : String} {mh i : Nat} {E : List QEntry}
    {acc : VisitMap × List QEntry} {u : String} {wu : Int} {n : String} {ew : Int}
    (hInv : StepInv b s mh i E acc)
    (hE : ∀ e ∈ E, e.2.1 ≤ i)
    (hu : ReachHop b s u i wu)
    (hnw : (n, ew) ∈ b.get_related_tracks u none)
    (hns : n ≠ s) (hlt : i < mh)
    (hmin : ∀ d' w', ReachHop b s n d' w' → i + 1 ≤ d') :
    ∃ w'', (n, i + 1, w'') ∈ (expandEntry b s mh acc (u, i, wu)).2 := by
  unfold expandEntry
  rw [if_neg (show ¬ ((u, i, wu) : QEntry).2.1 = mh by dsimp only; omega)]
  dsimp only
  rcases List.append_of_mem hnw with ⟨m₁, m₂, hsplit⟩
  rw [hsplit, List.foldl_append]
  simp only [List.foldl_cons]
  have hacc1 : StepInv b s mh i E (m₁.foldl (relaxNeighbor s i wu) acc) :=
    foldl_relax_inv hInv hu
      (fun nw hnw' => by rw [hsplit]; exact List.mem_append.mpr (Or.inl hnw')) hlt
  rcases relaxNeighbor_hit wu ew hacc1 hE hns hmin with ⟨w'', hw⟩
  exact ⟨w'', foldl_relax_queue_mono hw⟩

/-- Processing a level whose queue holds an entry for u at hop i leaves an
entry at hop i + 1 in the next queue for any neighbor of u at true distance
i + 1. -/
theorem levelStep_hit {b : GraphBackend} {s : String} {mh i : Nat} {E : List QEntry}
    {st : VisitMap × List QEntry}
    (h : LevelInv b s mh i E st) (hlt : i < mh)
    {u : String} (wu : Int) (hq : (u, i, wu) ∈ st.2)
    {n : String} {ew : Int} (hnw : (n, ew) ∈ b.get_related_tracks u none)
    (hns : n ≠ s)
    (hmin : ∀ d' w', ReachHop b s n d' w' → i + 1 ≤ d') :
    ∃ w'', (n, i + 1, w'') ∈ (levelStep b s mh st).2 := by
  unfold levelStep
  rcases List.append_of_mem hq with ⟨l₁, l₂, hsplit⟩
  rw [hsplit, List.foldl_append]
  simp only [List.foldl_cons]
  have hacc1 : StepInv b s mh i E (l₁.foldl (expandEntry b s mh) (st.1, [])) :=
    foldl_expand_inv (stepInv_of_levelInv h)
      (fun e he => h.qDepth e (by rw [hsplit]; exact List.mem_append.mpr (Or.inl he)))
      (fun e he => h.qReach e (by rw [hsplit]; exact List.mem_append.mpr (Or.inl he)))
      (by omega)
  have hu : ReachHop b s u i wu := h.qReach (u, i, wu) hq
  rcases expandEntry_hit hacc1 h.eDepth hu hnw hns hlt hmin with ⟨w'', hw⟩
  exact ⟨w'', foldl_expand_queue_mono hw⟩

/-- Every level queue up to level i is contained in the enqueued entries up
to level i. -/
theorem bfsQueue_subset_enqueued (b : GraphBackend) (s : String) (mh : Nat) :
    ∀ i j, j ≤ i → ∀ e ∈ (bfsState b s mh j).2, e ∈ enqueuedUpTo b s mh i := by
  intro i
  induction i with
  | zero =>
      intro j hj e he
      have hj0 : j = 0 := by omega
      subst hj0
      exact he
  | succ i ih =>
      intro j hj e he
      by_cases hji : j = i + 1
      · subst hji
        exact List.mem_append.mpr (Or.inr he)
      · exact List.mem_append.mpr (Or.inl (ih j (by omega) e he))

/-- A node at exact minimum distance d from the seed, with 1 ≤ d ≤ max_hops,
has an entry at hop d in the level d queue. -/
theorem comp_queue_entry (b : GraphBackend) (s : String) (mh : Nat) :
    ∀ d, 1 ≤ d → d ≤ mh → ∀ n w, ReachHop b s n d w → n ≠ s →
      (∀ d' w', ReachHop b s n d' w' → d ≤ d') →
      ∃ w'', (n, d, w'') ∈ (bfsState b s mh d).2 := by
  intro d
  induction d using Nat.strong_induction_on with
  | _ d ih =>
      intro hd1 hdmh n w hreach hns hmin
      cases hreach with
      | refl => exact absurd hd1 (by omega)
      | tail hu hnw hns2 =>
          rename_i u d₀ w₀ ew
          cases d₀ with
          | zero =>
              rcases reachHop_hop_zero hu with ⟨h1, _⟩
              subst h1
              exact levelStep_hit (bfs_levelInv _ _ _ 0 (Nat.zero_le _)) (by omega) 0
                (by simp [bfsState]) hnw hns2 hmin
          | succ e =>
              have hune : u ≠ s := by
                intro hc
                rw [hc] at hu
                rcases reachHop_seed_hop_zero hu with ⟨h1, _⟩
                exact absurd h1 (by omega)
              have humin : ∀ d' w', ReachHop b s u d' w' → e + 1 ≤ d' := by
                intro d' w' h'
                have := hmin (d' + 1) (w' + ew) (ReachHop.tail h' hnw hns2)
                omega
              rcases ih (e + 1) (by omega) (by omega) (by omega) u w₀ hu hune humin
                with ⟨wu, hqu⟩
              have hlev := bfs_levelInv b s mh (e + 1) (by omega)
              exact levelStep_hit hlev (by omega) wu hqu hnw hns2
                (fun d' w' h' => hmin d' w' h')

/-- Completeness of the final visited map: every non seed node reachable
within the hop bound has a record, at a hop count no larger than any of its
reachable hop counts. -/
theorem collect_reachable_complete {b : GraphBackend} {s : String} {mh : Nat}
    {n : String} {d : Nat} {w : Int}
    (hreach : ReachHop b s n d w) (hns : n ≠ s) (hdle : d ≤ mh) :
    ∃ p, VisitMap.get (collect_reachable s b mh) n = some p ∧ p.1 ≤ d := by
  classical
  have hP : ∃ d', ∃ w', ReachHop b s n d' w' := ⟨d, w, hreach⟩
  obtain ⟨w₀, h₀⟩ := Nat.find_spec hP
  have hmin₀ : ∀ d' w', ReachHop b s n d' w' → Nat.find hP ≤ d' :=
    fun d' w' h' => Nat.find_min' hP ⟨w', h'⟩
  have hd₀1 : 1 ≤ Nat.find hP := by
    by_contra hcon
    have h0 : Nat.find hP = 0 := by omega
    rw [h0] at h₀
    exact hns (reachHop_hop_zero h₀).1
  have hd₀d : Nat.find hP ≤ d := hmin₀ d w hreach
  rcases comp_queue_entry b s mh (Nat.find hP) hd₀1 (by omega) n w₀ h₀ hns hmin₀
    with ⟨w'', hq⟩
  have hqE : (n, Nat.find hP, w'') ∈ enqueuedUpTo b s mh mh :=
    bfsQueue_subset_enqueued b s mh mh (Nat.find hP) (by omega) _ hq
  have hLI := bfs_levelInv b s mh mh (le_refl mh)
  rcases hLI.eVis n (Nat.find hP) w'' hqE with ⟨hcs, _, _⟩ | ⟨p, hp⟩
  · exact absurd hcs hns
  · refine ⟨p, hp, ?_⟩
    have hstat := (hLI.vMin n p hp).2 (Nat.find hP) w'' hqE
    unfold statLE at hstat
    omega

/-- The final record of a node is among the enqueued entries and is the best
of them: minimum hop, and maximum weight at that hop. -/
theorem collect_reachable_explored_min {b : GraphBackend} {s : String} {mh : Nat}
    {n : String} {d : Nat} {w : Int}
    (h : VisitMap.get (collect_reachable s b mh) n = some (d, w)) :
    (n, d, w) ∈ exploredEntries b s mh ∧
      ∀ d' w', (n, d', w') ∈ exploredEntries b s mh → d < d' ∨ (d = d' ∧ w' ≤ w) := by
  have hLI := bfs_levelInv b s mh mh (le_refl mh)
  have hm := hLI.vMin n (d, w) h
  refine ⟨hm.1, ?_⟩
  intro d' w' hmem
  have hle := hm.2 d' w' hmem
  unfold statLE at hle
  exact hle

/-! ### Claim theorems -/

/-- C4: for every negative cap k both the single seed and the multi seed query
return the InvalidArgument error, and for every max_hops below 1 (once the cap
check passes) the multi seed query returns the InvalidArgument error.  The
result is a constant independent of the backend argument, so the error is
raised before any store access and never after partial work. -/
theorem c4_invalid_argument (t : String) (track_ids : List String) (b : GraphBackend)
    (kk : Int) (k : Option Int) (mh : Int) :
    (kk < 0 →
      get_related_tracks t b (some kk) =
        Except.error "k must be a non-negative integer or None" ∧
      get_related_tracks_for_multiple_details track_ids b (some kk) mh =
        Except.error "k must be a non-negative integer or None") ∧
    (mh < 1 → negCap k = false →
      get_related_tracks_for_multiple_details track_ids b k mh =
        Except.error "max_hops must be at least 1") := by
  constructor
  · intro hkk
    have hneg : negCap (some kk) = true := by simpa [negCap] using hkk
    exact ⟨by simp [get_related_tracks, hneg],
      by simp [get_related_tracks_for_multiple_details, hneg]⟩
  · intro hmh hk
    simp [get_related_tracks_for_multiple_details, hk, hmh]

/-- Witness for C4 at k = -1 and max_hops = 0 with the empty backend. -/
theorem c4_invalid_argument_witness :
    ((-1 : Int) < 0 →
      get_related_tracks "x" emptyBackend (some (-1)) =
        Except.error "k must be a non-negative integer or None" ∧
      get_related_tracks_for_multiple_details ["x"] emptyBackend (some (-1)) 1 =
        Except.error "k must be a non-negative integer or None") ∧
    (((0 : Int) < 1 → negCap (none : Option Int) = false →
      get_related_tracks_for_multiple_details ["x"] emptyBackend none 0 =
        Except.error "max_hops must be at least 1") ∧
      (-1 : Int) < 0 ∧ (0 : Int) < 1) := by
  refine ⟨?_, ?_, by decide, by decide⟩
  · exact (c4_invalid_argument "x" ["x"] emptyBackend (-1) none 1).1
  · intro _ hk
    exact (c4_invalid_argument "x" ["x"] emptyBackend (-1) none 0).2 (by decide) hk

/-- C9: on every input, the id only multi seed query returns exactly the
candidate ids, in order, of the detail query on the same input (and the same
error when the detail query errors): both variants share one ranking and
truncation. -/
theorem c9_id_query_refines_detail_query (track_ids : List String) (b : GraphBackend)
    (k : Option Int) (mh : Int) :
    get_related_tracks_for_multiple track_ids b k mh =
      Except.map (List.map (fun d => d.1))
        (get_related_tracks_for_multiple_details track_ids b k mh) :=
  multiple_eq_map_details track_ids b k mh

/-- C8: for every conformant store and every cap that passes the negative cap
check, the single seed query returns exactly the neighbor ids of the ranked
neighbor list of the store, in store order, truncated by the cap, and an
unknown seed (empty ranked list) yields an empty result. -/
theorem c8_single_seed_projection (track_id : String) (b : GraphBackend) (k : Option Int)
    (hb : GraphBackend.Conformant b) (hk : negCap k = false) :
    get_related_tracks track_id b k =
      Except.ok (truncateCap k ((b.get_related_tracks track_id none).map Prod.fst)) ∧
    (b.get_related_tracks track_id none = [] →
      get_related_tracks track_id b k = Except.ok []) := by
  have main : get_related_tracks track_id b k =
      Except.ok (truncateCap k ((b.get_related_tracks track_id none).map Prod.fst)) := by
    unfold get_related_tracks
    simp only [hk, Bool.false_eq_true, if_false]
    cases k with
    | none => simp [truncateCap]
    | some kk =>
        have hkk : (0 : Int) ≤ kk := by
          simp [negCap] at hk
          omega
        rw [hb track_id kk hkk]
        simp [truncateCap, List.map_take]
  refine ⟨main, fun hempty => ?_⟩
  rw [main, hempty]
  simp [truncateCap_nil]

/-- Witness for C8 with the empty backend and cap 1. -/
theorem c8_single_seed_projection_witness :
    GraphBackend.Conformant emptyBackend ∧ negCap (some 1) = false ∧
    (get_related_tracks "t" emptyBackend (some 1) =
        Except.ok (truncateCap (some 1)
          ((emptyBackend.get_related_tracks "t" none).map Prod.fst)) ∧
      (emptyBackend.get_related_tracks "t" none = [] →
        get_related_tracks "t" emptyBackend (some 1) = Except.ok [])) :=
  ⟨fun _ _ _ => (List.take_nil).symm, rfl,
    c8_single_seed_projection "t" emptyBackend (some 1)
      (fun _ _ _ => (List.take_nil).symm) rfl⟩

/-- C2: for every graph state of the in process store and every id, the spec
modelled neighbor lookup returns a list sorted by weight descending with ties
broken by neighbor id ascending; an id incident to no stored edge yields the
empty list; and a non negative cap returns exactly the leading entries of the
uncapped ranking, hence at most that many. -/
theorem c2_nx_store_contract (g : NXGraph) (track_id : String) :
    (NXGraph.get_related_tracks g track_id none).Sorted neighborLe ∧
    ((∀ e ∈ g, track_id ≠ e.1 ∧ track_id ≠ e.2.1) →
      NXGraph.get_related_tracks g track_id none = []) ∧
    (∀ l : Int, 0 ≤ l →
      NXGraph.get_related_tracks g track_id (some l) =
        (NXGraph.get_related_tracks g track_id none).take l.toNat) := by
  refine ⟨?_, ?_, ?_⟩
  · exact List.sorted_insertionSort neighborLe _
  · intro h
    unfold NXGraph.get_related_tracks
    have hadj : NXGraph.adjacency g track_id = [] := by
      unfold NXGraph.adjacency
      rw [List.filterMap_eq_nil_iff]
      intro e he
      rcases h e he with ⟨h1, h2⟩
      have g1 : ¬ e.1 = track_id := fun hc => h1 hc.symm
      have g2 : ¬ e.2.1 = track_id := fun hc => h2 hc.symm
      simp [g1, g2]
    simp [hadj]
  · intro l _
    rfl

/-- Witness for C2 on a one edge graph with an unknown id and cap 1. -/
theorem c2_nx_store_contract_witness :
    ((NXGraph.get_related_tracks [("a", "b", 2)] "a" none).Sorted neighborLe ∧
      (∀ e ∈ [("a", "b", (2 : Int))], "c" ≠ e.1 ∧ "c" ≠ e.2.1) ∧
      NXGraph.get_related_tracks [("a", "b", 2)] "c" none = []) ∧
    ((0 : Int) ≤ 1 ∧
      NXGraph.get_related_tracks [("a", "b", 2)] "a" (some 1) =
        (NXGraph.get_related_tracks [("a", "b", 2)] "a" none).take (1 : Int).toNat) := by
  refine ⟨⟨(c2_nx_store_contract [("a", "b", 2)] "a").1, by decide, ?_⟩, by decide, ?_⟩
  · exact (c2_nx_store_contract [("a", "b", 2)] "c").2.1 (by decide)
  · exact (c2_nx_store_contract [("a", "b", 2)] "a").2.2 1 (by decide)

/-- C1 counterexample: on the scenario D store (undirected edges a-b(2),
a-c(1), b-d(5)) the multi seed query with seeds [a, b] and max_hops 1 returns
the empty list, so it does not return candidates c and d. -/
theorem c1_counterexample_empty :
    get_related_tracks_for_multiple ["a", "b"] storeD none 1 = Except.ok [] ∧
    ¬ ∃ l, get_related_tracks_for_multiple ["a", "b"] storeD none 1 = Except.ok l ∧
        "c" ∈ l ∧ "d" ∈ l := by
  refine ⟨rfl, ?_⟩
  rintro ⟨l, hl, hc, _⟩
  have h0 : get_related_tracks_for_multiple ["a", "b"] storeD none 1 = Except.ok [] := rfl
  rw [h0] at hl
  injection hl with h
  rw [← h] at hc
  simp at hc

/-- C1 (amended): on the scenario D store the multi seed query with seeds
[a, b] and max_hops 1 returns no candidates, because within one hop c is
reachable only from a and d only from b, so the intersection across seeds is
empty. -/
theorem c1_scenario_d_result :
    get_related_tracks_for_multiple_details ["a", "b"] storeD none 1 = Except.ok [] := rfl

/-- C7: duplicate seeds in the input collapse to one occurrence preserving
first occurrence order (the deduplicated seed list is a duplicate free sublist
of the input with exactly the members of the input), and the multi seed result
depends only on the deduplicated seed list, so it is unaffected by repetition
of seed ids or by the ordering of duplicate occurrences. -/
theorem c7_duplicate_seeds_collapse (l₁ l₂ : List String) (b : GraphBackend)
    (k : Option Int) (mh : Int) :
    (dedupFirstOccurrence l₁).Nodup ∧
    List.Sublist (dedupFirstOccurrence l₁) l₁ ∧
    (∀ x, x ∈ dedupFirstOccurrence l₁ ↔ x ∈ l₁) ∧
    (dedupFirstOccurrence l₁ = dedupFirstOccurrence l₂ →
      get_related_tracks_for_multiple_details l₁ b k mh =
        get_related_tracks_for_multiple_details l₂ b k mh) :=
  ⟨dedupFirstOccurrence_nodup l₁, dedupFirstOccurrence_sublist l₁,
    fun _ => mem_dedupFirstOccurrence,
    fun hd => details_depends_only_on_dedup l₁ l₂ b k mh hd⟩

/-- Witness for C7 on two seed lists with repeated and reordered duplicates. -/
theorem c7_duplicate_seeds_collapse_witness :
    dedupFirstOccurrence ["sa", "sa", "sb"] = dedupFirstOccurrence ["sa", "sb", "sb", "sa"] ∧
    get_related_tracks_for_multiple_details ["sa", "sa", "sb"] storeC none 1 =
      get_related_tracks_for_multiple_details ["sa", "sb", "sb", "sa"] storeC none 1 :=
  ⟨rfl, (c7_duplicate_seeds_collapse ["sa", "sa", "sb"] ["sa", "sb", "sb", "sa"]
    storeC none 1).2.2.2 rfl⟩

/-- C5: on every validated input the detail query output is the truncation by
the cap of a list that is a permutation of the surviving candidate details and
is sorted ascending by total hops, then descending by total weight, then
ascending by candidate id; the fully deterministic output is this sorted list,
whole when no cap is given and cut to the first k entries otherwise. -/
theorem c5_ranking_and_truncation (track_ids : List String) (b : GraphBackend)
    (k : Option Int) (mh : Int) (hk : negCap k = false) (hmh : 1 ≤ mh) :
    ∃ ranked : List CandidateDetail,
      ranked.Perm
        ((sharedCandidates
            (reachablePerSeed (dedupFirstOccurrence track_ids) b mh.toNat)).map
          (candidateDetail (dedupFirstOccurrence track_ids)
            (reachablePerSeed (dedupFirstOccurrence track_ids) b mh.toNat))) ∧
      ranked.Pairwise (fun x y => x.2.1 < y.2.1 ∨
        (x.2.1 = y.2.1 ∧ (y.2.2.1 < x.2.2.1 ∨ (x.2.2.1 = y.2.2.1 ∧ x.1 ≤ y.1)))) ∧
      get_related_tracks_for_multiple_details track_ids b k mh =
        Except.ok (truncateCap k ranked) := by
  refine ⟨List.insertionSort detailKeyLe
      ((sharedCandidates
          (reachablePerSeed (dedupFirstOccurrence track_ids) b mh.toNat)).map
        (candidateDetail (dedupFirstOccurrence track_ids)
          (reachablePerSeed (dedupFirstOccurrence track_ids) b mh.toNat))),
    List.perm_insertionSort _ _, ?_, details_eq track_ids b k mh hk hmh⟩
  have hs := List.sorted_insertionSort detailKeyLe
      ((sharedCandidates
          (reachablePerSeed (dedupFirstOccurrence track_ids) b mh.toNat)).map
        (candidateDetail (dedupFirstOccurrence track_ids)
          (reachablePerSeed (dedupFirstOccurrence track_ids) b mh.toNat)))
  exact hs.imp (fun h => (detailKeyLe_iff_spec _ _).mp h)

/-- Witness for C5 on the two seed store with a shared neighbor. -/
theorem c5_ranking_and_truncation_witness :
    negCap (none : Option Int) = false ∧ (1 : Int) ≤ 1 ∧
    ∃ ranked : List CandidateDetail,
      ranked.Perm
        ((sharedCandidates
            (reachablePerSeed (dedupFirstOccurrence ["sa", "sb"]) storeC (1 : Int).toNat)).map
          (candidateDetail (dedupFirstOccurrence ["sa", "sb"])
            (reachablePerSeed (dedupFirstOccurrence ["sa", "sb"]) storeC (1 : Int).toNat))) ∧
      ranked.Pairwise (fun x y => x.2.1 < y.2.1 ∨
        (x.2.1 = y.2.1 ∧ (y.2.2.1 < x.2.2.1 ∨ (x.2.2.1 = y.2.2.1 ∧ x.1 ≤ y.1)))) ∧
      get_related_tracks_for_multiple_details ["sa", "sb"] storeC none 1 =
        Except.ok (truncateCap none ranked) :=
  ⟨rfl, by decide, c5_ranking_and_truncation ["sa", "sb"] storeC none 1 rfl (by decide)⟩

/-- C6: a seed id never appears in a multi seed result, in the detail variant
or the id variant, even when it is reachable from another seed within the hop
bound. -/
theorem c6_no_seed_in_result (track_ids : List String) (b : GraphBackend)
    (k : Option Int) (mh : Int) (s : String) (hs : s ∈ track_ids) :
    (∀ ds, get_related_tracks_for_multiple_details track_ids b k mh = Except.ok ds →
      ∀ cd ∈ ds, cd.1 ≠ s) ∧
    (∀ ids, get_related_tracks_for_multiple track_ids b k mh = Except.ok ids → s ∉ ids) := by
  have main : ∀ ds, get_related_tracks_for_multiple_details track_ids b k mh = Except.ok ds →
      ∀ cd ∈ ds, cd.1 ≠ s := by
    intro ds hds cd hcd
    by_cases hk : negCap k = true
    · rw [get_related_tracks_for_multiple_details, if_pos hk] at hds
      exact absurd hds (by simp)
    · have hk' : negCap k = false := by simpa using hk
      by_cases hmh : mh < 1
      · rw [get_related_tracks_for_multiple_details, if_neg (by simp [hk']), if_pos hmh] at hds
        exact absurd hds (by simp)
      · have hmh' : (1 : Int) ≤ mh := not_lt.mp hmh
        rw [details_eq track_ids b k mh hk' hmh'] at hds
        injection hds with hds
        subst hds
        have hsort : cd ∈ List.insertionSort detailKeyLe
            ((sharedCandidates
                (reachablePerSeed (dedupFirstOccurrence track_ids) b mh.toNat)).map
              (candidateDetail (dedupFirstOccurrence track_ids)
                (reachablePerSeed (dedupFirstOccurrence track_ids) b mh.toNat))) := by
          cases k with
          | none => exact hcd
          | some kk => exact List.take_subset _ _ hcd
        have hres := (List.mem_insertionSort detailKeyLe).mp hsort
        rcases List.mem_map.mp hres with ⟨c, hc, rfl⟩
        rcases mem_sharedCandidates hc with ⟨_, hall⟩
        intro hcs
        have hs' : s ∈ dedupFirstOccurrence track_ids := mem_dedupFirstOccurrence.mpr hs
        cases hrps : reachablePerSeed (dedupFirstOccurrence track_ids) b mh.toNat with
        | nil => rw [hrps] at hc; simp [sharedCandidates] at hc
        | cons first rest =>
            have hfirst : first ∈ reachablePerSeed (dedupFirstOccurrence track_ids) b mh.toNat := by
              rw [hrps]; exact List.mem_cons_self _ _
            rcases hall first (by rw [hrps]; exact List.mem_cons_self _ _) with ⟨p, hp⟩
            have hnone := reachablePerSeed_get_seed_none hfirst hs'
            rw [show (candidateDetail (dedupFirstOccurrence track_ids)
                (reachablePerSeed (dedupFirstOccurrence track_ids) b mh.toNat) c).1 = c
              from rfl] at hcs
            rw [hcs] at hp
            rw [hnone] at hp
            exact absurd hp (by simp)
  refine ⟨main, ?_⟩
  intro ids hids hmem
  rw [multiple_eq_map_details] at hids
  cases hd : get_related_tracks_for_multiple_details track_ids b k mh with
  | error e => rw [hd] at hids; exact absurd hids (by simp [Except.map])
  | ok ds =>
      rw [hd] at hids
      simp only [Except.map] at hids
      injection hids with hids
      subst hids
      rcases List.mem_map.mp hmem with ⟨cd, hcd, hcs⟩
      exact main ds hd cd hcd hcs

/-- C10: on every validated multi seed detail query over a non empty seed
list, each returned candidate detail carries a per seed map whose key list is
exactly the deduplicated seed list in order, every per seed hop lies between
1 and max_hops, and the total hop count lies between the number of distinct
seeds and that number times max_hops. -/
theorem c10_per_seed_map_shape (track_ids : List String) (b : GraphBackend)
    (k : Option Int) (mh : Int) (hne : track_ids ≠ []) (hmh : 1 ≤ mh)
    (hk : negCap k = false) :
    ∀ ds, get_related_tracks_for_multiple_details track_ids b k mh = Except.ok ds →
      ∀ cd ∈ ds,
        cd.2.2.2.map (fun q => q.1) = dedupFirstOccurrence track_ids ∧
        (∀ q ∈ cd.2.2.2, 1 ≤ q.2.1 ∧ q.2.1 ≤ mh.toNat) ∧
        (dedupFirstOccurrence track_ids).length ≤ cd.2.1 ∧
        cd.2.1 ≤ (dedupFirstOccurrence track_ids).length * mh.toNat := by
  intro ds hds cd hcd
  rw [details_eq track_ids b k mh hk hmh] at hds
  injection hds with hds
  subst hds
  set u := dedupFirstOccurrence track_ids with hu
  set rps := reachablePerSeed u b mh.toNat with hrps
  have hsort : cd ∈ List.insertionSort detailKeyLe
      ((sharedCandidates rps).map (candidateDetail u rps)) := by
    cases k with
    | none => exact hcd
    | some kk => exact List.take_subset _ _ hcd
  have hres := (List.mem_insertionSort detailKeyLe).mp hsort
  rcases List.mem_map.mp hres with ⟨c, hc, rfl⟩
  rcases mem_sharedCandidates hc with ⟨_, hall⟩
  have hstats : ∀ q ∈ (candidateDetail u rps c).2.2.2, 1 ≤ q.2.1 ∧ q.2.1 ≤ mh.toNat := by
    intro q hq
    rw [candidateDetail_perSeed] at hq
    rcases List.mem_map.mp hq with ⟨sid, hsid, rfl⟩
    rcases lookupSeed_get_collect hsid hall with ⟨p, hlook, hcol⟩
    obtain ⟨d, w⟩ := p
    have hbnd := collect_reachable_sound hcol
    dsimp only
    rw [hlook]
    simp only [Option.getD_some]
    exact ⟨hbnd.2.1, hbnd.2.2⟩
  have hlen : (candidateDetail u rps c).2.2.2.length = u.length := by
    rw [candidateDetail_perSeed]
    simp
  refine ⟨?_, hstats, ?_, ?_⟩
  · rw [candidateDetail_perSeed, List.map_map]
    exact List.map_id'' (fun x => rfl) u
  · rw [candidateDetail_hops]
    have h1 : ∀ x ∈ (candidateDetail u rps c).2.2.2.map (fun q => q.2.1), 1 ≤ x := by
      intro x hx
      rcases List.mem_map.mp hx with ⟨q, hq, rfl⟩
      exact (hstats q hq).1
    have hle := length_le_sum_of_one_le h1
    rw [List.length_map, hlen] at hle
    exact hle
  · rw [candidateDetail_hops]
    have h2 : ∀ x ∈ (candidateDetail u rps c).2.2.2.map (fun q => q.2.1), x ≤ mh.toNat := by
      intro x hx
      rcases List.mem_map.mp hx with ⟨q, hq, rfl⟩
      exact (hstats q hq).2
    have hle := sum_le_length_mul_of_le h2
    rw [List.length_map, hlen] at hle
    exact hle

/-- Witness for C10 on the two seed store with a shared neighbor. -/
theorem c10_per_seed_map_shape_witness :
    (["sa", "sb"] ≠ ([] : List String)) ∧ (1 : Int) ≤ 1 ∧ negCap none = false ∧
    (∀ ds, get_related_tracks_for_multiple_details ["sa", "sb"] storeC none 1 = Except.ok ds →
      ∀ cd ∈ ds,
        cd.2.2.2.map (fun q => q.1) = dedupFirstOccurrence ["sa", "sb"] ∧
        (∀ q ∈ cd.2.2.2, 1 ≤ q.2.1 ∧ q.2.1 ≤ (1 : Int).toNat) ∧
        (dedupFirstOccurrence ["sa", "sb"]).length ≤ cd.2.1 ∧
        cd.2.1 ≤ (dedupFirstOccurrence ["sa", "sb"]).length * (1 : Int).toNat) :=
  ⟨by decide, by decide, rfl,
    c10_per_seed_map_shape ["sa", "sb"] storeC none 1 (by decide) (by decide) rfl⟩

/-- C3: for every seed, every store, and every max_hops at least 1, the
bounded BFS records a node exactly when it is a non seed node reachable
within max_hops; the recorded hop count is realized by a path and is the
minimum over all reachable hop counts; nodes all of whose paths are longer
than max_hops are absent; and the recorded (hop, weight) pair has the minimum
hop and, at that hop, the maximum cumulative weight among all entries the
improving update rule ever enqueued, the paths actually explored. -/
theorem c3_bfs_records_min_hops (b : GraphBackend) (s : String) (mh : Nat)
    (hmh : 1 ≤ mh) :
    (∀ n d w, VisitMap.get (collect_reachable s b mh) n = some (d, w) →
      ReachHop b s n d w ∧ 1 ≤ d ∧ d ≤ mh ∧
        ∀ d' w', ReachHop b s n d' w' → d ≤ d') ∧
    (∀ n d w, ReachHop b s n d w → n ≠ s → d ≤ mh →
      ∃ p, VisitMap.get (collect_reachable s b mh) n = some p ∧ p.1 ≤ d) ∧
    (∀ n, (∀ d w, ReachHop b s n d w → mh < d) →
      VisitMap.get (collect_reachable s b mh) n = none) ∧
    (∀ n d w, VisitMap.get (collect_reachable s b mh) n = some (d, w) →
      (n, d, w) ∈ exploredEntries b s mh ∧
        ∀ d' w', (n, d', w') ∈ exploredEntries b s mh → d < d' ∨ (d = d' ∧ w' ≤ w)) := by
  refine ⟨?_, fun n d w hr hns hdle => collect_reachable_complete hr hns hdle, ?_,
    fun n d w h => collect_reachable_explored_min h⟩
  · intro n d w h
    have hs := collect_reachable_sound h
    refine ⟨hs.1, hs.2.1, hs.2.2, ?_⟩
    intro d' w' hr'
    by_cases hle : d' ≤ mh
    · have hns : n ≠ s := by
        intro hc
        have hzz := reachHop_seed_hop_zero (hc ▸ hs.1)
        have h1 := hs.2.1
        omega
      rcases collect_reachable_complete hr' hns hle with ⟨p, hp, hple⟩
      rw [h] at hp
      injection hp with hp
      rw [← hp] at hple
      exact hple
    · have := hs.2.2
      omega
  · intro n hfar
    cases hg : VisitMap.get (collect_reachable s b mh) n with
    | none => rfl
    | some p =>
        obtain ⟨d, w⟩ := p
        have hs := collect_reachable_sound hg
        have hcontra := hfar d w hs.1
        have := hs.2.2
        omega

/-- Witness for C3 on the two seed store from the seed sa with hop bound 1. -/
theorem c3_bfs_records_min_hops_witness :
    1 ≤ 1 ∧
    ((∀ n d w, VisitMap.get (collect_reachable "sa" storeC 1) n = some (d, w) →
      ReachHop storeC "sa" n d w ∧ 1 ≤ d ∧ d ≤ 1 ∧
        ∀ d' w', ReachHop storeC "sa" n d' w' → d ≤ d') ∧
    (∀ n d w, ReachHop storeC "sa" n d w → n ≠ "sa" → d ≤ 1 →
      ∃ p, VisitMap.get (collect_reachable "sa" storeC 1) n = some p ∧ p.1 ≤ d) ∧
    (∀ n, (∀ d w, ReachHop storeC "sa" n d w → 1 < d) →
      VisitMap.get (collect_reachable "sa" storeC 1) n = none) ∧
    (∀ n d w, VisitMap.get (collect_reachable "sa" storeC 1) n = some (d, w) →
      (n, d, w) ∈ exploredEntries storeC "sa" 1 ∧
        ∀ d' w', (n, d', w') ∈ exploredEntries storeC "sa" 1 →
          d < d' ∨ (d = d' ∧ w' ≤ w))) :=
  ⟨le_refl 1, c3_bfs_records_min_hops storeC "sa" 1 (le_refl 1)⟩

/-- Witness for C6 on the two seed store with a shared neighbor. -/
theorem c6_no_seed_in_result_witness :
    "sa" ∈ ["sa", "sb"] ∧
    ((∀ ds, get_related_tracks_for_multiple_details ["sa", "sb"] storeC none 1 = Except.ok ds →
      ∀ cd ∈ ds, cd.1 ≠ "sa") ∧
    (∀ ids, get_related_tracks_for_multiple ["sa", "sb"] storeC none 1 = Except.ok ids →
      "sa" ∉ ids)) :=
  ⟨by decide, c6_no_seed_in_result ["sa", "sb"] storeC none 1 "sa" (by decide)⟩

end MrGraph
